import Mathlib

/-!
Verification of the Remora transaction pre-execution core
(crates/remora/src): the load balancer (load_balancer.rs), the
dependency-parallel proxy worker (proxy.rs) and the sequential proxy
variant (proxy/core.rs), together with the dependency controller they
rely on.

Transactions are identified by natural numbers in ingress order; object
ids and completion-signal ids are natural numbers as well.  Channels are
modelled by their open/closed status: a tokio mpsc `send` fails exactly
when the receiver half has been dropped, so a send to an open channel
appends to the receiver's FIFO list and a send to a closed channel
returns the channel-closed error.  Rust's `%` on `usize` panics when the
divisor is zero, which `rustMod` makes explicit.
-/

/-- Rust `a % b` on `usize`: panics (`none`) when `b = 0`. -/
def rustMod (a b : Nat) : Option Nat :=
  if b = 0 then none else some (a % b)

/-- Observable outcome of `LoadBalancer::run` (load_balancer.rs):
the transactions delivered to the consensus sink in order, for every
transaction that reached the proxy-dispatch step the proxy index that
received it (`none` when every proxy refused it and it was dropped),
whether the loop hit Rust's modulo-by-zero panic, and whether it broke
out early because the consensus send failed. -/
structure LBOut where
  consensusOut : List Nat
  routes : List (Nat × Option Nat)
  panicked : Bool
  stopped : Bool
deriving Repr, DecidableEq

/-- Loop body of `LoadBalancer::try_other_proxies` (load_balancer.rs
lines 38-51): starting from index `j`, stop with a warning when `j`
cycles back to `failed`, otherwise send to the first open proxy.  The
fuel argument is an upper bound on the number of iterations; the loop
revisits `failed` after at most `proxyOpen.length` steps, so fuel
`proxyOpen.length` is never exhausted when `failed < proxyOpen.length`. -/
def tryLoop (proxyOpen : List Bool) (failed : Nat) : Nat → Nat → Option Nat
  | _, 0 => none
  | j, fuel + 1 =>
    if j = failed then none
    else if proxyOpen.getD j false then some j
    else tryLoop proxyOpen failed ((j + 1) % proxyOpen.length) fuel

/-- `LoadBalancer::try_other_proxies` (load_balancer.rs lines 36-52).
The outer `Option` is the panic of `(failed + 1) % self.tx_proxies.len()`
when the proxy list is empty; the inner `Option Nat` is the proxy that
accepted the transaction, `none` when the cycle returned to `failed`. -/
def tryOtherProxies (proxyOpen : List Bool) (failed : Nat) : Option (Option Nat) :=
  match rustMod (failed + 1) proxyOpen.length with
  | none => none
  | some j => some (tryLoop proxyOpen failed j proxyOpen.length)

/-- Proxy-dispatch step of one iteration of `LoadBalancer::run`
(load_balancer.rs lines 65-77): compute `proxy_id = i % tx_proxies.len()`
(panic when the list is empty), send there, and on failure fall back to
`try_other_proxies`. -/
def routeOne (proxyOpen : List Bool) (i : Nat) : Option (Option Nat) :=
  match rustMod i proxyOpen.length with
  | none => none
  | some p =>
    if proxyOpen.getD p false then some (some p)
    else tryOtherProxies proxyOpen p

/-- `LoadBalancer::run` (load_balancer.rs lines 55-81) from counter value
`i` on the remaining ingress transactions: each iteration first sends a
clone to the consensus sink (breaking out of the loop when that send
fails), then dispatches to the proxies, then increments `i`. -/
def lbRunAux (consensusOpen : Bool) (proxyOpen : List Bool) : Nat → List Nat → LBOut
  | _, [] => ⟨[], [], false, false⟩
  | i, tx :: rest =>
    if consensusOpen then
      match routeOne proxyOpen i with
      | none => ⟨[tx], [], true, false⟩
      | some r =>
        let out := lbRunAux consensusOpen proxyOpen (i + 1) rest
        ⟨tx :: out.consensusOut, (tx, r) :: out.routes, out.panicked, out.stopped⟩
    else ⟨[], [], false, true⟩

/-- `LoadBalancer::run` started with `let mut i = 0`. -/
def lbRun (consensusOpen : Bool) (proxyOpen : List Bool) (txs : List Nat) : LBOut :=
  lbRunAux consensusOpen proxyOpen 0 txs

/-- Failover order the spec prescribes after primary `p` fails with `n`
proxies: indices `(p+1) % n, (p+2) % n, …, (p+n-1) % n`. -/
def failoverSeq (p n : Nat) : List Nat :=
  (List.range (n - 1)).map fun k => (p + 1 + k) % n

example : lbRun true [true, false, true] [0, 1, 2, 3, 4, 5] =
    ⟨[0, 1, 2, 3, 4, 5],
     [(0, some 0), (1, some 2), (2, some 2), (3, some 0), (4, some 2), (5, some 2)],
     false, false⟩ := by
  decide

example : lbRun false [true] [0] = ⟨[], [], false, true⟩ := by decide

example : lbRun true [] [0, 1] = ⟨[0], [], true, false⟩ := by decide

/-- `InputObjectKind` of `sui_types::transaction`, as matched in
`Proxy::run` (proxy.rs lines 72-79); object ids are abstracted to
naturals and unused payload to plain fields. -/
inductive InputObjectKind where
  | immOrOwned (objId : Nat)
  | shared (objId : Nat) (initialVersion : Nat) (mutableFlag : Bool)
  | movePackage
deriving Repr, DecidableEq

/-- Footprint extraction of `Proxy::run` (proxy.rs lines 68-82): keep the
object id of every `ImmOrOwnedMoveObject` and `SharedMoveObject` input,
filter out move packages. -/
def footprintOf (inputObjects : List InputObjectKind) : List Nat :=
  inputObjects.filterMap fun kind =>
    match kind with
    | InputObjectKind.immOrOwned objId => some objId
    | InputObjectKind.shared objId _ _ => some objId
    | InputObjectKind.movePackage => none

/-- Association-list lookup for the dependency table `object_id → signal`. -/
def lookupA : List (Nat × Nat) → Nat → Option Nat
  | [], _ => none
  | (k, v) :: rest, o => if k = o then some v else lookupA rest o

/-- Association-list update for the dependency table. -/
def insertA : List (Nat × Nat) → Nat → Nat → List (Nat × Nat)
  | [], o, s => [(o, s)]
  | (k, v) :: rest, o, s =>
    if k = o then (o, s) :: rest else (k, v) :: insertA rest o s

/-- Duplicate collapse of a footprint, keeping first occurrences; `seen`
accumulates the ids already emitted. -/
def dedupAux (seen : List Nat) : List Nat → List Nat
  | [] => []
  | x :: xs => if x ∈ seen then dedupAux seen xs else x :: dedupAux (x :: seen) xs

/-- Duplicate-collapsed footprint. -/
def fpDedup (fp : List Nat) : List Nat := dedupAux [] fp

/-- Modelled from the spec: one object step of
`DependencyController::get_dependencies` (dependency_controller.rs is not
among the sources at hand; §4.3 of the spec defines the operation).  If
the table already holds a signal `P` for this object id, `P` joins the
prior handles and the entry is replaced by the fresh signal `s`; else `s`
is inserted. -/
def depStep (s : Nat) (acc : List Nat × List (Nat × Nat)) (objId : Nat) :
    List Nat × List (Nat × Nat) :=
  match lookupA acc.2 objId with
  | some p => (acc.1 ++ [p], insertA acc.2 objId s)
  | none => (acc.1, insertA acc.2 objId s)

/-- Modelled from the spec: `DependencyController::get_dependencies`
(§4.3).  One fresh signal `s` is created per admission (identified with
the task id), the duplicate-collapsed footprint is folded through
`depStep`, and `current_handles` is `[s]`.  Returns
`(prior_handles, current_handles, updated table)`. -/
def getDependencies (table : List (Nat × Nat)) (s : Nat) (footprint : List Nat) :
    List Nat × List Nat × List (Nat × Nat) :=
  let res := (fpDedup footprint).foldl (depStep s) ([], table)
  (res.1, [s], res.2)

/-- An admitted task: its id (1-based admission order, equal to the id of
the completion signal created for it), its prior handles and its current
handles. -/
structure PTask where
  tid : Nat
  priors : List Nat
  currents : List Nat
deriving Repr, DecidableEq

/-- Admission loop of `Proxy::run` (proxy.rs lines 64-87) restricted to
the dependency bookkeeping: each received transaction gets
`task_id = previous + 1` starting from 1 and its handles from the
controller.  `fps` lists the footprints in ingress order. -/
def mkTasksAux (table : List (Nat × Nat)) (taskId : Nat) : List (List Nat) → List PTask
  | [] => []
  | fp :: rest =>
    let dep := getDependencies table (taskId + 1) fp
    ⟨taskId + 1, dep.1, dep.2.1⟩ :: mkTasksAux dep.2.2 (taskId + 1) rest

/-- All tasks admitted by one proxy for the footprint stream `fps`,
starting from the empty dependency table and `task_id = 0`. -/
def mkTasks (fps : List (List Nat)) : List PTask := mkTasksAux [] 0 fps

/-- The task admitted `n`-th (1-based). -/
def taskOf (fps : List (List Nat)) (n : Nat) : PTask :=
  (mkTasks fps).getD (n - 1) ⟨0, [], []⟩

/-- Footprint of the `n`-th admitted transaction (1-based). -/
def fpOf (fps : List (List Nat)) (n : Nat) : List Nat := fps.getD (n - 1) []

/-- The greatest task index `m < n` (with `1 ≤ m`) whose footprint holds
object `o`, i.e. the table entry for `o` right before task `n` is
admitted. -/
def lastToucher (fps : List (List Nat)) (o : Nat) : Nat → Option Nat
  | 0 => none
  | n + 1 => if 1 ≤ n ∧ o ∈ fpOf fps n then some n else lastToucher fps o n

/-- Overlap of the footprints of tasks `a` and `b`. -/
def overlapsB (fps : List (List Nat)) (a b : Nat) : Bool :=
  (fpOf fps a).any fun o => decide (o ∈ fpOf fps b)

/-- One link of the spec's overlap chain: `a` admitted before `b`, both
in range, with intersecting footprints. -/
def overlapStep (fps : List (List Nat)) (a b : Nat) : Prop :=
  a < b ∧ b ≤ fps.length ∧ 1 ≤ a ∧ overlapsB fps a b = true

instance (fps : List (List Nat)) (a b : Nat) : Decidable (overlapStep fps a b) := by
  unfold overlapStep
  infer_instance

/-- Dependency edge: task `q` holds the completion signal of the earlier
task `p` among its prior handles. -/
def depEdge (fps : List (List Nat)) (p q : Nat) : Prop :=
  p ∈ (taskOf fps q).priors ∧ 1 ≤ p ∧ p < q ∧ q ≤ fps.length

/-- Events of the spawned task of `Proxy::run` (proxy.rs lines 92-106)
for task `t`: the executor call starts (`taskBegin`), the executor
returns (`taskEnd`), the current completion signals are fired (`fire`),
the effects are sent (`send`). -/
inductive Ev where
  | taskBegin (t : Nat)
  | taskEnd (t : Nat)
  | fire (t : Nat)
  | send (t : Nat)
deriving Repr, DecidableEq

/-- Position of the first occurrence of `e` (the list length when `e` is
absent). -/
def evIdx (e : Ev) : List Ev → Nat
  | [] => 0
  | x :: xs => if x = e then 0 else evIdx e xs + 1

/-- Task ids `1, …, fps.length`. -/
def taskIds (fps : List (List Nat)) : List Nat := (List.range fps.length).map (· + 1)

/-- Admissible interleaving of the events of the tasks spawned by
`Proxy::run` (proxy.rs lines 92-106): every admitted task begins, ends,
fires and sends exactly once, in that program order (the body awaits the
priors, calls `E::exec_on_ctx`, runs the `notify_one` loop, then sends),
and it begins only after each of its prior signals has been fired —
`prior_notify.notified().await` returns no earlier than the matching
`notify_one`. -/
def validTrace (fps : List (List Nat)) (tr : List Ev) : Prop :=
  ∀ t ∈ taskIds fps,
    tr.count (Ev.taskBegin t) = 1 ∧ tr.count (Ev.taskEnd t) = 1 ∧
    tr.count (Ev.fire t) = 1 ∧ tr.count (Ev.send t) = 1 ∧
    evIdx (Ev.taskBegin t) tr < evIdx (Ev.taskEnd t) tr ∧
    evIdx (Ev.taskEnd t) tr < evIdx (Ev.fire t) tr ∧
    evIdx (Ev.fire t) tr < evIdx (Ev.send t) tr ∧
    ∀ p ∈ (taskOf fps t).priors, evIdx (Ev.fire p) tr < evIdx (Ev.taskBegin t) tr

instance (fps : List (List Nat)) (tr : List Ev) : Decidable (validTrace fps tr) := by
  unfold validTrace
  infer_instance

/-- Task ids in the order their effects reach the output channel. -/
def sendOrder (tr : List Ev) : List Nat :=
  tr.filterMap fun e => match e with | Ev.send t => some t | _ => none

/-- Execution effects, opaque to the core except for `success()`; tagged
with the producing task id so output sequences can be compared. -/
structure Effects where
  success : Bool
  tid : Nat
deriving Repr, DecidableEq

/-- Channel-level outcome of one spawned task of `Proxy::run`:
which handles it fired, the effects its send call carried (`none` when no
send was reached), and the effects the receiver obtained (`none` when the
channel was closed or no send happened). -/
structure TaskOutcome where
  tid : Nat
  currents : List Nat
  fired : List Nat
  sentAttempt : Option Effects
  delivered : Option Effects
deriving Repr, DecidableEq

/-- Body of the task spawned per transaction in `Proxy::run` (proxy.rs
lines 92-106): run the executor, fire every current handle with
`notify_one`, then send the effects.  `panics t.tid = true` models
`E::exec_on_ctx` panicking: the task unwinds, so neither the notify loop
nor the send runs.  Otherwise the effects carry `success = succ t.tid`
and the send is attempted regardless of that flag, delivering only when
the effects receiver is open (a failed send is logged and the task
returns). -/
def runTask (effectsOpen : Bool) (panics succ : Nat → Bool) (t : PTask) : TaskOutcome :=
  if panics t.tid then ⟨t.tid, t.currents, [], none, none⟩
  else
    let eff : Effects := ⟨succ t.tid, t.tid⟩
    ⟨t.tid, t.currents, t.currents, some eff, if effectsOpen then some eff else none⟩

/-- `Proxy::run` (proxy.rs lines 55-108) as seen per task: the admission
loop drains the transaction channel until closure — its body contains no
`break`, so the state of the effects channel never affects admission —
and spawns one task per transaction. -/
def proxyRun (effectsOpen : Bool) (panics succ : Nat → Bool)
    (table : List (Nat × Nat)) (taskId : Nat) : List (List Nat) → List TaskOutcome
  | [] => []
  | fp :: rest =>
    let dep := getDependencies table (taskId + 1) fp
    runTask effectsOpen panics succ ⟨taskId + 1, dep.1, dep.2.1⟩ ::
      proxyRun effectsOpen panics succ dep.2.2 (taskId + 1) rest

/-- `ProxyCore::run` (proxy/core.rs lines 64-85): receive, execute
synchronously, send the effects, and `break` out of the loop when the
send fails.  Returns the effects delivered to the receiver and the number
of transactions received and executed. -/
def coreRun (effectsOpen : Bool) (succ : Nat → Bool) :
    Nat → List (List Nat) → List Effects × Nat
  | _, [] => ([], 0)
  | tid, _ :: rest =>
    let eff : Effects := ⟨succ (tid + 1), tid + 1⟩
    if effectsOpen then
      let out := coreRun effectsOpen succ (tid + 1) rest
      (eff :: out.1, out.2 + 1)
    else ([], 1)

example : mkTasks [[1], [1, 2], [2]] =
    [⟨1, [], [1]⟩, ⟨2, [1], [2]⟩, ⟨3, [2], [3]⟩] := by decide

example : validTrace [[1], [1]]
    [Ev.taskBegin 1, Ev.taskEnd 1, Ev.fire 1, Ev.taskBegin 2,
     Ev.taskEnd 2, Ev.fire 2, Ev.send 2, Ev.send 1] := by decide

example : footprintOf [InputObjectKind.immOrOwned 4, InputObjectKind.movePackage,
    InputObjectKind.shared 7 0 true] = [4, 7] := by decide

theorem routeOne_isSome (proxyOpen : List Bool) (i : Nat) (h : proxyOpen.length ≠ 0) :
    ∃ r, routeOne proxyOpen i = some r := by
  unfold routeOne tryOtherProxies rustMod
  simp only [if_neg h]
  split
  · exact ⟨_, rfl⟩
  · exact ⟨_, rfl⟩

/-- C5: when the consensus send fails, the balancer logs a warning and
breaks out of its loop before any proxy dispatch: with the consensus
receiver closed, the loop stops on the first transaction, no proxy route
is attempted and nothing reaches consensus. -/
theorem c5_consensus_closed_stops (proxyOpen : List Bool) (i tx : Nat) (rest : List Nat) :
    lbRunAux false proxyOpen i (tx :: rest) = ⟨[], [], false, true⟩ := rfl

/-- C9: with an empty proxy list the very first iteration of
`LoadBalancer::run` hits `i % tx_proxies.len()` with a zero divisor and
panics (after the consensus send), and `try_other_proxies` hits the same
modulo-by-zero; with at least one proxy the run never panics, so the
spec's precondition `N ≥ 1` is exactly what totality requires. -/
theorem c9_modulo_zero_panic :
    (∀ i tx rest, (lbRunAux true [] i (tx :: rest)).panicked = true ∧ rustMod i 0 = none) ∧
    (∀ failed, tryOtherProxies [] failed = none) ∧
    (∀ consensusOpen proxyOpen i txs, 0 < proxyOpen.length →
      (lbRunAux consensusOpen proxyOpen i txs).panicked = false) := by
  refine ⟨fun i tx rest => ⟨rfl, rfl⟩, fun failed => rfl, ?_⟩
  intro consensusOpen proxyOpen i txs h
  induction txs generalizing i with
  | nil => rfl
  | cons tx rest ih =>
    cases consensusOpen with
    | false => rfl
    | true =>
      obtain ⟨r, hr⟩ := routeOne_isSome proxyOpen i (Nat.pos_iff_ne_zero.mp h)
      simp only [lbRunAux, if_true, hr]
      exact ih (i + 1)

theorem c9_modulo_zero_panic_witness :
    (lbRunAux true [] 0 [7]).panicked = true ∧
      (lbRunAux true [true] 0 [7]).panicked = false :=
  ⟨(c9_modulo_zero_panic.1 0 7 []).1,
   c9_modulo_zero_panic.2.2 true [true] 0 [7] (by decide)⟩

/-- C10: the consensus send happens — and must succeed — before any proxy
dispatch for the same transaction, so every transaction delivered to some
proxy also reached the consensus sink, on every iteration of the loop. -/
theorem c10_proxy_subset_consensus (consensusOpen : Bool) (proxyOpen : List Bool)
    (i : Nat) (txs : List Nat) (t j : Nat)
    (h : (t, some j) ∈ (lbRunAux consensusOpen proxyOpen i txs).routes) :
    t ∈ (lbRunAux consensusOpen proxyOpen i txs).consensusOut := by
  induction txs generalizing i with
  | nil => simp [lbRunAux] at h
  | cons tx rest ih =>
    cases consensusOpen with
    | false => simp [lbRunAux] at h
    | true =>
      cases hr : routeOne proxyOpen i with
      | none => simp [lbRunAux, hr] at h
      | some r =>
        simp only [lbRunAux, if_true, hr] at h ⊢
        rcases List.mem_cons.mp h with h1 | h2
        · exact List.mem_cons.mpr (Or.inl (congrArg Prod.fst h1))
        · exact List.mem_cons.mpr (Or.inr (ih (i + 1) h2))

theorem c10_proxy_subset_consensus_witness : (7 : Nat) ∈ (lbRunAux true [true] 0 [7]).consensusOut :=
  c10_proxy_subset_consensus true [true] 0 [7] 7 0 (by decide)

theorem lbRunAux_routes_all_open (proxyOpen : List Bool)
    (hall : ∀ k < proxyOpen.length, proxyOpen.getD k false = true)
    (hlen : 0 < proxyOpen.length) :
    ∀ (txs : List Nat) (i k : Nat), k < txs.length →
      (lbRunAux true proxyOpen i txs).routes.getD k (0, none) =
        (txs.getD k 0, some ((i + k) % proxyOpen.length)) := by
  intro txs
  induction txs with
  | nil => intro i k hk; simp at hk
  | cons tx rest ih =>
    intro i k hk
    have hopen : proxyOpen[i % proxyOpen.length]?.getD false = true := by
      simpa [List.getD_eq_getElem?_getD] using hall _ (Nat.mod_lt _ hlen)
    have hroute : routeOne proxyOpen i = some (some (i % proxyOpen.length)) := by
      unfold routeOne rustMod
      simp [Nat.pos_iff_ne_zero.mp hlen, hopen]
    cases k with
    | zero => simp [lbRunAux, hroute]
    | succ k =>
      simp only [lbRunAux, if_true, hroute, List.getD_cons_succ]
      have hrec := ih (i + 1) k (by simpa using hk)
      have harith : i + 1 + k = i + (k + 1) := by omega
      rw [hrec, harith]

/-- C2: with every proxy channel open, the `k`-th admitted transaction
(0-indexed) is routed to proxy `k mod N`; the counter `i` starts at 0 and
is incremented once per admitted transaction. -/
theorem c2_round_robin (proxyOpen : List Bool) (txs : List Nat) (k : Nat)
    (hall : ∀ j < proxyOpen.length, proxyOpen.getD j false = true)
    (hlen : 0 < proxyOpen.length) (hk : k < txs.length) :
    (lbRun true proxyOpen txs).routes.getD k (0, none) =
      (txs.getD k 0, some (k % proxyOpen.length)) := by
  have h := lbRunAux_routes_all_open proxyOpen hall hlen txs 0 k hk
  simpa using h

theorem c2_round_robin_witness :
    (lbRun true [true, true] [5, 6, 7]).routes.getD 2 (0, none) = (7, some 0) :=
  c2_round_robin [true, true] [5, 6, 7] 2 (by decide) (by decide) (by decide)

/-- C3 counterexample: scenario S4 (N=3, proxy 1 closed, T0..T5) does
not produce the routing the spec expects.  The claimed assignment sends
T4 to proxy 0, but the code computes primary `4 mod 3 = 1`, fails, and
`try_other_proxies` starts at `(1+1) mod 3 = 2`, which is open — so T4
goes to proxy 2. -/
theorem c3_counterexample :
    (lbRun true [true, false, true] [0, 1, 2, 3, 4, 5]).routes.map Prod.snd ≠
      [some 0, some 2, some 2, some 0, some 0, some 2] := by
  decide

/-- C3 amended: with N=3 and the receiver of proxy 1 closed before any
send, T0..T5 are routed to proxies 0, 2, 2, 0, 2, 2 respectively (T4 goes
to proxy 2, not 0: failover from primary 1 starts at index 2, which is
open), and the consensus sink receives all six in ingress order. -/
theorem c3_failover_amended :
    (lbRun true [true, false, true] [0, 1, 2, 3, 4, 5]).routes =
      [(0, some 0), (1, some 2), (2, some 2), (3, some 0), (4, some 2), (5, some 2)] ∧
    (lbRun true [true, false, true] [0, 1, 2, 3, 4, 5]).consensusOut = [0, 1, 2, 3, 4, 5] := by
  decide

theorem tryLoop_eq_find (proxyOpen : List Bool) (failed : Nat)
    (hf : failed < proxyOpen.length) :
    ∀ r k, k + r + 1 = proxyOpen.length →
      tryLoop proxyOpen failed ((failed + 1 + k) % proxyOpen.length) (proxyOpen.length - k) =
        ((List.range r).map fun t => (failed + 1 + k + t) % proxyOpen.length).find?
          (fun j => proxyOpen.getD j false) := by
  intro r
  induction r with
  | zero =>
    intro k hk
    have h1 : failed + 1 + k = failed + proxyOpen.length := by omega
    have hj : (failed + 1 + k) % proxyOpen.length = failed := by
      rw [h1, Nat.add_mod_right]
      exact Nat.mod_eq_of_lt hf
    have hfuel : proxyOpen.length - k = 1 := by omega
    rw [hj, hfuel]
    simp [tryLoop]
  | succ r ih =>
    intro k hk
    have hne : (failed + 1 + k) % proxyOpen.length ≠ failed := by
      intro heq
      have hdm := Nat.div_add_mod (failed + 1 + k) proxyOpen.length
      rw [heq] at hdm
      rcases Nat.eq_zero_or_pos ((failed + 1 + k) / proxyOpen.length) with h0 | hpos
      · rw [h0, Nat.mul_zero] at hdm
        omega
      · have hge : proxyOpen.length ≤
            proxyOpen.length * ((failed + 1 + k) / proxyOpen.length) :=
          Nat.le_mul_of_pos_right _ hpos
        set P := proxyOpen.length * ((failed + 1 + k) / proxyOpen.length) with hP
        omega
    have hfuel : proxyOpen.length - k = (proxyOpen.length - (k + 1)) + 1 := by omega
    rw [hfuel, tryLoop, if_neg hne]
    rw [List.range_succ_eq_map, List.map_cons, List.find?_cons]
    simp only [Nat.add_zero]
    by_cases hopen : proxyOpen.getD ((failed + 1 + k) % proxyOpen.length) false = true
    · rw [if_pos hopen, hopen]
    · have hfalse : proxyOpen.getD ((failed + 1 + k) % proxyOpen.length) false = false := by
        revert hopen
        cases proxyOpen.getD ((failed + 1 + k) % proxyOpen.length) false <;> simp
      rw [if_neg hopen, hfalse]
      have haux : failed + 1 + k + 1 = failed + 1 + (k + 1) := by omega
      have hmod : ((failed + 1 + k) % proxyOpen.length + 1) % proxyOpen.length =
          (failed + 1 + (k + 1)) % proxyOpen.length := by
        rw [Nat.mod_add_mod, haux]
      rw [hmod, ih (k + 1) (by omega), List.map_map]
      have hmaps : (List.range r).map (fun t => (failed + 1 + (k + 1) + t) % proxyOpen.length) =
          (List.range r).map ((fun t => (failed + 1 + k + t) % proxyOpen.length) ∘ Nat.succ) := by
        apply List.map_congr_left
        intro t _
        simp only [Function.comp_apply]
        congr 1
        omega
      rw [hmaps]

theorem tryOtherProxies_eq_find (proxyOpen : List Bool) (failed : Nat)
    (hf : failed < proxyOpen.length) :
    tryOtherProxies proxyOpen failed =
      some ((failoverSeq failed proxyOpen.length).find? fun j => proxyOpen.getD j false) := by
  have hlen : proxyOpen.length ≠ 0 := by omega
  unfold tryOtherProxies rustMod
  rw [if_neg hlen]
  have h := tryLoop_eq_find proxyOpen failed hf (proxyOpen.length - 1) 0 (by omega)
  simp only [Nat.add_zero, Nat.sub_zero] at h
  show some (tryLoop proxyOpen failed ((failed + 1) % proxyOpen.length) proxyOpen.length) = _
  rw [h]
  rfl

/-- C4: when the send to the primary proxy `i mod N` fails, the balancer
attempts `(primary+1) mod N, (primary+2) mod N, …` in that order —
the route equals the first open index of `failoverSeq`, and is `none`
exactly when the iteration came back to `primary` with every other
proxy closed — the transaction is then dropped for proxies while the
loop goes on with the remaining transactions, consensus having already
received the transaction. -/
theorem c4_failover (proxyOpen : List Bool) (i tx : Nat) (rest : List Nat)
    (hlen : 0 < proxyOpen.length)
    (hclosed : proxyOpen.getD (i % proxyOpen.length) false = false) :
    routeOne proxyOpen i =
      some ((failoverSeq (i % proxyOpen.length) proxyOpen.length).find?
        fun j => proxyOpen.getD j false) ∧
    lbRunAux true proxyOpen i (tx :: rest) =
      ⟨tx :: (lbRunAux true proxyOpen (i + 1) rest).consensusOut,
       (tx, (failoverSeq (i % proxyOpen.length) proxyOpen.length).find?
          fun j => proxyOpen.getD j false) :: (lbRunAux true proxyOpen (i + 1) rest).routes,
       (lbRunAux true proxyOpen (i + 1) rest).panicked,
       (lbRunAux true proxyOpen (i + 1) rest).stopped⟩ := by
  have hmod : i % proxyOpen.length < proxyOpen.length := Nat.mod_lt _ hlen
  have hroute : routeOne proxyOpen i =
      some ((failoverSeq (i % proxyOpen.length) proxyOpen.length).find?
        fun j => proxyOpen.getD j false) := by
    unfold routeOne rustMod
    rw [if_neg (Nat.pos_iff_ne_zero.mp hlen)]
    show (if proxyOpen.getD (i % proxyOpen.length) false then _ else _) = _
    rw [hclosed]
    show tryOtherProxies proxyOpen (i % proxyOpen.length) = _
    exact tryOtherProxies_eq_find proxyOpen (i % proxyOpen.length) hmod
  refine ⟨hroute, ?_⟩
  show (if true then _ else _) = _
  rw [if_pos rfl, hroute]

theorem c4_failover_witness :
    routeOne [false, false] 0 =
      some ((failoverSeq (0 % 2) 2).find? fun j => [false, false].getD j false) ∧
    lbRunAux true [false, false] 0 [9, 10] =
      ⟨9 :: (lbRunAux true [false, false] 1 [10]).consensusOut,
       (9, (failoverSeq (0 % 2) 2).find?
          fun j => [false, false].getD j false) :: (lbRunAux true [false, false] 1 [10]).routes,
       (lbRunAux true [false, false] 1 [10]).panicked,
       (lbRunAux true [false, false] 1 [10]).stopped⟩ :=
  c4_failover [false, false] 0 9 [10] (by decide) (by decide)

theorem lookupA_insertA_self (T : List (Nat × Nat)) (o s : Nat) :
    lookupA (insertA T o s) o = some s := by
  induction T with
  | nil => simp [insertA, lookupA]
  | cons kv rest ih =>
    obtain ⟨k, v⟩ := kv
    by_cases hk : k = o
    · subst hk
      simp [insertA, lookupA]
    · simp [insertA, lookupA, hk, ih]

theorem lookupA_insertA_ne (T : List (Nat × Nat)) (o s o' : Nat) (h : o' ≠ o) :
    lookupA (insertA T o s) o' = lookupA T o' := by
  induction T with
  | nil => simp [insertA, lookupA, Ne.symm h]
  | cons kv rest ih =>
    obtain ⟨k, v⟩ := kv
    by_cases hk : k = o
    · subst hk
      simp [insertA, lookupA, Ne.symm h]
    · simp only [insertA, if_neg hk, lookupA]
      by_cases hk' : k = o'
      · simp [hk']
      · simp [hk', ih]

theorem mem_dedupAux (x : Nat) : ∀ (l seen : List Nat),
    x ∈ dedupAux seen l ↔ x ∈ l ∧ x ∉ seen := by
  intro l
  induction l with
  | nil => intro seen; simp [dedupAux]
  | cons y ys ih =>
    intro seen
    by_cases hy : y ∈ seen
    · rw [dedupAux, if_pos hy, ih]
      constructor
      · rintro ⟨hx, hns⟩
        exact ⟨List.mem_cons_of_mem _ hx, hns⟩
      · rintro ⟨hx, hns⟩
        rcases List.mem_cons.mp hx with rfl | hx
        · exact absurd hy hns
        · exact ⟨hx, hns⟩
    · rw [dedupAux, if_neg hy]
      constructor
      · intro hx
        rcases List.mem_cons.mp hx with rfl | hx
        · exact ⟨List.mem_cons_self _ _, hy⟩
        · have := (ih (y :: seen)).mp hx
          refine ⟨List.mem_cons_of_mem _ this.1, fun hs => this.2 (List.mem_cons_of_mem _ hs)⟩
      · rintro ⟨hx, hns⟩
        rcases List.mem_cons.mp hx with rfl | hx
        · exact List.mem_cons_self _ _
        · by_cases hxy : x = y
          · subst hxy
            exact List.mem_cons_self _ _
          · refine List.mem_cons_of_mem _ ((ih (y :: seen)).mpr ⟨hx, ?_⟩)
            intro hs
            rcases List.mem_cons.mp hs with h' | h'
            · exact hxy h'
            · exact hns h'

theorem mem_fpDedup (x : Nat) (l : List Nat) : x ∈ fpDedup l ↔ x ∈ l := by
  rw [fpDedup, mem_dedupAux]
  simp

theorem nodup_dedupAux : ∀ (l seen : List Nat), (dedupAux seen l).Nodup := by
  intro l
  induction l with
  | nil => intro seen; simp [dedupAux]
  | cons y ys ih =>
    intro seen
    by_cases hy : y ∈ seen
    · rw [dedupAux, if_pos hy]
      exact ih seen
    · rw [dedupAux, if_neg hy]
      refine List.Nodup.cons ?_ (ih (y :: seen))
      intro hmem
      exact ((mem_dedupAux y ys (y :: seen)).mp hmem).2 (List.mem_cons_self _ _)

theorem nodup_fpDedup (l : List Nat) : (fpDedup l).Nodup := nodup_dedupAux l []

theorem foldl_depStep_lookup (s : Nat) : ∀ (d : List Nat) (pr : List Nat)
    (T : List (Nat × Nat)) (o : Nat),
    lookupA (d.foldl (depStep s) (pr, T)).2 o = if o ∈ d then some s else lookupA T o := by
  intro d
  induction d with
  | nil => intro pr T o; simp
  | cons h tail ih =>
    intro pr T o
    rw [List.foldl_cons]
    by_cases ho : o ∈ h :: tail
    · rw [if_pos ho]
      rcases List.mem_cons.mp ho with rfl | hot
      · by_cases hot : o ∈ tail
        · cases hl : lookupA T o <;> simp [depStep, hl, ih, hot]
        · cases hl : lookupA T o <;>
            simp [depStep, hl, ih, hot, lookupA_insertA_self]
      · cases hl : lookupA T h <;> simp [depStep, hl, ih, hot]
    · have hoh : o ≠ h := fun he => ho (he ▸ List.mem_cons_self _ _)
      have hot : o ∉ tail := fun ht => ho (List.mem_cons_of_mem _ ht)
      rw [if_neg ho]
      cases hl : lookupA T h <;>
        simp [depStep, hl, ih, hot, lookupA_insertA_ne _ _ _ _ hoh]

theorem foldl_depStep_priors_ext (s : Nat) : ∀ (d : List Nat) (pr : List Nat)
    (T : List (Nat × Nat)), ∃ ext, (d.foldl (depStep s) (pr, T)).1 = pr ++ ext := by
  intro d
  induction d with
  | nil => intro pr T; exact ⟨[], by simp⟩
  | cons h tail ih =>
    intro pr T
    rw [List.foldl_cons]
    cases hl : lookupA T h with
    | none =>
      obtain ⟨ext, he⟩ := ih pr (insertA T h s)
      exact ⟨ext, by simpa [depStep, hl] using he⟩
    | some p =>
      obtain ⟨ext, he⟩ := ih (pr ++ [p]) (insertA T h s)
      exact ⟨[p] ++ ext, by simpa [depStep, hl, List.append_assoc] using he⟩

theorem mem_priors_of_lookup (s : Nat) : ∀ (d : List Nat) (pr : List Nat)
    (T : List (Nat × Nat)) (o p : Nat), d.Nodup → o ∈ d → lookupA T o = some p →
    p ∈ (d.foldl (depStep s) (pr, T)).1 := by
  intro d
  induction d with
  | nil => intro pr T o p _ ho; simp at ho
  | cons h tail ih =>
    intro pr T o p hnd ho hl
    rw [List.foldl_cons]
    rcases List.mem_cons.mp ho with rfl | hot
    · rw [depStep, hl]
      obtain ⟨ext, he⟩ := foldl_depStep_priors_ext s tail (pr ++ [p]) (insertA T o s)
      rw [he]
      exact List.mem_append_left _ (List.mem_append_right _ (List.mem_singleton.mpr rfl))
    · have hoh : o ≠ h := by
        rintro rfl
        exact (List.nodup_cons.mp hnd).1 hot
      have hl' : lookupA (insertA T h s) o = some p := by
        rw [lookupA_insertA_ne _ _ _ _ hoh, hl]
      cases hlh : lookupA T h with
      | none =>
        rw [depStep, hlh]
        exact ih _ _ o p (List.nodup_cons.mp hnd).2 hot hl'
      | some q =>
        rw [depStep, hlh]
        exact ih _ _ o p (List.nodup_cons.mp hnd).2 hot hl'

theorem mkTasksAux_cons (T : List (Nat × Nat)) (n : Nat) (fp : List Nat)
    (rest : List (List Nat)) :
    mkTasksAux T n (fp :: rest) =
      ⟨n + 1, (getDependencies T (n + 1) fp).1, (getDependencies T (n + 1) fp).2.1⟩ ::
        mkTasksAux (getDependencies T (n + 1) fp).2.2 (n + 1) rest := rfl

theorem lastToucher_one (fps : List (List Nat)) (o : Nat) : lastToucher fps o 1 = none := by
  show (if 1 ≤ 0 ∧ o ∈ fpOf fps 0 then some 0 else lastToucher fps o 0) = none
  rw [if_neg (by omega)]
  rfl

theorem lastToucher_succ (fps : List (List Nat)) (o n : Nat) :
    lastToucher fps o (n + 1) =
      if 1 ≤ n ∧ o ∈ fpOf fps n then some n else lastToucher fps o n := rfl

theorem mkTasksAux_props (fps : List (List Nat)) :
    ∀ (rest : List (List Nat)) (n : Nat) (T : List (Nat × Nat)),
      rest = fps.drop n →
      (∀ o, lookupA T o = lastToucher fps o (n + 1)) →
      ∀ k, k < rest.length →
        ((mkTasksAux T n rest).getD k ⟨0, [], []⟩).tid = n + k + 1 ∧
        ((mkTasksAux T n rest).getD k ⟨0, [], []⟩).currents = [n + k + 1] ∧
        ∀ o m, o ∈ fpOf fps (n + k + 1) → lastToucher fps o (n + k + 1) = some m →
          m ∈ ((mkTasksAux T n rest).getD k ⟨0, [], []⟩).priors := by
  intro rest
  induction rest with
  | nil =>
    intro n T _ _ k hk
    simp at hk
  | cons fp rest' ih =>
    intro n T hdrop hT k hk
    have hfp : fpOf fps (n + 1) = fp := by
      have h0 : fps[n]? = some fp := by
        rw [← List.head?_drop, ← hdrop]
        rfl
      unfold fpOf
      simp [List.getD_eq_getElem?_getD, h0]
    have hdrop' : rest' = fps.drop (n + 1) := by
      have h1 : List.drop 1 (List.drop n fps) = List.drop (n + 1) fps := List.drop_drop 1 n fps
      rw [← hdrop] at h1
      exact h1
    cases k with
    | zero =>
      rw [mkTasksAux_cons, List.getD_cons_zero]
      refine ⟨rfl, rfl, ?_⟩
      intro o m ho hm
      have ho2 : o ∈ fp := by
        rw [← hfp]
        exact ho
      have hlook : lookupA T o = some m := by
        rw [hT o]
        exact hm
      show m ∈ ((fpDedup fp).foldl (depStep (n + 1)) ([], T)).1
      exact mem_priors_of_lookup (n + 1) (fpDedup fp) [] T o m (nodup_fpDedup fp)
        ((mem_fpDedup o fp).mpr ho2) hlook
    | succ k =>
      have hTnew : ∀ o, lookupA (getDependencies T (n + 1) fp).2.2 o =
          lastToucher fps o (n + 1 + 1) := by
        intro o
        show lookupA ((fpDedup fp).foldl (depStep (n + 1)) ([], T)).2 o = _
        rw [foldl_depStep_lookup, lastToucher_succ]
        by_cases ho : o ∈ fp
        · rw [if_pos ((mem_fpDedup o fp).mpr ho),
            if_pos ⟨by omega, by rw [hfp]; exact ho⟩]
        · rw [if_neg (fun hin => ho ((mem_fpDedup o fp).mp hin)),
            if_neg (fun hc => ho (by rw [← hfp]; exact hc.2)), hT o]
      have hres := ih (n + 1) (getDependencies T (n + 1) fp).2.2 hdrop' hTnew k
        (by simpa using hk)
      have hidx : n + 1 + k + 1 = n + (k + 1) + 1 := by omega
      rw [hidx] at hres
      rw [mkTasksAux_cons, List.getD_cons_succ]
      exact hres

theorem mkTasks_props (fps : List (List Nat)) (n : Nat) (h1 : 1 ≤ n) (h2 : n ≤ fps.length) :
    (taskOf fps n).tid = n ∧ (taskOf fps n).currents = [n] ∧
    ∀ o m, o ∈ fpOf fps n → lastToucher fps o n = some m → m ∈ (taskOf fps n).priors := by
  have hbase : ∀ o, lookupA [] o = lastToucher fps o 1 := by
    intro o
    rw [lastToucher_one]
    rfl
  have h := mkTasksAux_props fps fps 0 [] rfl hbase (n - 1) (by omega)
  have hidx : 0 + (n - 1) + 1 = n := by omega
  rw [hidx] at h
  exact h

theorem lastToucher_bounds (fps : List (List Nat)) (o : Nat) : ∀ n m,
    lastToucher fps o n = some m →
    1 ≤ m ∧ m < n ∧ o ∈ fpOf fps m ∧ ∀ j, m < j → j < n → o ∉ fpOf fps j := by
  intro n
  induction n with
  | zero => intro m hm; simp [lastToucher] at hm
  | succ n ih =>
    intro m hm
    rw [lastToucher_succ] at hm
    by_cases hc : 1 ≤ n ∧ o ∈ fpOf fps n
    · rw [if_pos hc] at hm
      obtain rfl : n = m := by injection hm
      exact ⟨hc.1, by omega, hc.2, fun j hj1 hj2 => by omega⟩
    · rw [if_neg hc] at hm
      obtain ⟨hm1, hm2, hm3, hm4⟩ := ih m hm
      refine ⟨hm1, by omega, hm3, ?_⟩
      intro j hj1 hj2 hmem
      by_cases hjn : j = n
      · subst hjn
        exact hc ⟨by omega, hmem⟩
      · exact hm4 j hj1 (by omega) hmem

theorem lastToucher_covers (fps : List (List Nat)) (o a : Nat) : ∀ n, a < n → 1 ≤ a →
    o ∈ fpOf fps a → ∃ m, lastToucher fps o n = some m ∧ a ≤ m := by
  intro n
  induction n with
  | zero => intro h; omega
  | succ n ih =>
    intro han ha hao
    rw [lastToucher_succ]
    by_cases hc : 1 ≤ n ∧ o ∈ fpOf fps n
    · rw [if_pos hc]
      exact ⟨n, rfl, by omega⟩
    · rw [if_neg hc]
      have hlt : a < n := by
        rcases Nat.lt_succ_iff_lt_or_eq.mp han with h | h
        · exact h
        · subst h
          exact absurd ⟨ha, hao⟩ hc
      exact ih hlt ha hao

theorem depReach_of_overlap (fps : List (List Nat)) :
    ∀ b a o, a < b → 1 ≤ a → b ≤ fps.length → o ∈ fpOf fps a → o ∈ fpOf fps b →
      Relation.TransGen (depEdge fps) a b := by
  intro b
  induction b using Nat.strong_induction_on with
  | _ b ih =>
    intro a o hab ha hb hoa hob
    obtain ⟨m, hm, ham⟩ := lastToucher_covers fps o a b hab ha hoa
    obtain ⟨hm1, hm2, hm3, _⟩ := lastToucher_bounds fps o b m hm
    have hedge : depEdge fps m b := by
      refine ⟨?_, hm1, hm2, hb⟩
      exact (mkTasks_props fps b (by omega) hb).2.2 o m hob hm
    rcases Nat.eq_or_lt_of_le ham with rfl | hlt
    · exact Relation.TransGen.single hedge
    · exact Relation.TransGen.tail (ih m hm2 a o hlt ha (by omega) hoa hm3) hedge

theorem depReach_of_chain (fps : List (List Nat)) (a b : Nat)
    (h : Relation.TransGen (overlapStep fps) a b) :
    Relation.TransGen (depEdge fps) a b := by
  induction h with
  | single hstep =>
    obtain ⟨hab, hb, ha, hov⟩ := hstep
    obtain ⟨o, hoa, hob⟩ := by
      simpa using List.any_eq_true.mp hov
    exact depReach_of_overlap fps _ _ o hab ha hb hoa hob
  | tail hchain hstep ih =>
    obtain ⟨hab, hb, ha, hov⟩ := hstep
    obtain ⟨o, hoa, hob⟩ := by
      simpa using List.any_eq_true.mp hov
    exact Relation.TransGen.trans ih (depReach_of_overlap fps _ _ o hab ha hb hoa hob)

theorem mem_taskIds (fps : List (List Nat)) (t : Nat) (h1 : 1 ≤ t) (h2 : t ≤ fps.length) :
    t ∈ taskIds fps := by
  unfold taskIds
  refine List.mem_map.mpr ⟨t - 1, List.mem_range.mpr (by omega), by omega⟩

theorem depReach_fire_lt_taskBegin (fps : List (List Nat)) (tr : List Ev)
    (hv : validTrace fps tr) :
    ∀ a b, Relation.TransGen (depEdge fps) a b →
      1 ≤ a ∧ a ≤ fps.length ∧ 1 ≤ b ∧ b ≤ fps.length ∧
      evIdx (Ev.fire a) tr < evIdx (Ev.taskBegin b) tr := by
  intro a b h
  induction h with
  | single hstep =>
    obtain ⟨hmem, ha, hab, hb⟩ := hstep
    have hvb := hv _ (mem_taskIds fps _ (by omega) hb)
    exact ⟨ha, by omega, by omega, hb, hvb.2.2.2.2.2.2.2 a hmem⟩
  | tail hchain hstep ih =>
    obtain ⟨hmem, hc, hcb, hb⟩ := hstep
    obtain ⟨ha1, ha2, hc1, hc2, hlt⟩ := ih
    have hvc := hv _ (mem_taskIds fps _ hc1 hc2)
    have hvb := hv _ (mem_taskIds fps _ (by omega) hb)
    have h1 := hvc.2.2.2.2.1
    have h2 := hvc.2.2.2.2.2.1
    have h3 := hvb.2.2.2.2.2.2.2 _ hmem
    exact ⟨ha1, ha2, by omega, hb, by omega⟩

/-- C1 (dependency safety): for two transactions `a` admitted before `b`
on the same proxy whose footprints overlap directly or through a chain of
intermediate overlapping tasks, the completion signal of `a` transitively
reaches `b`'s prior handles, and in every admissible interleaving of the
spawned tasks the executor call of `a` returns before the executor call
of `b` starts — each spawned task awaits all its prior handles before
invoking the executor. -/
theorem c1_dependency_safety (fps : List (List Nat)) (tr : List Ev) (a b : Nat)
    (hchain : Relation.TransGen (overlapStep fps) a b)
    (hv : validTrace fps tr) :
    Relation.TransGen (depEdge fps) a b ∧
    evIdx (Ev.taskEnd a) tr < evIdx (Ev.taskBegin b) tr := by
  have hreach := depReach_of_chain fps a b hchain
  obtain ⟨ha1, ha2, _, _, hlt⟩ := depReach_fire_lt_taskBegin fps tr hv a b hreach
  have hva := hv a (mem_taskIds fps a ha1 ha2)
  have hend := hva.2.2.2.2.2.1
  exact ⟨hreach, by omega⟩

theorem c1_dependency_safety_witness :
    Relation.TransGen (depEdge [[1], [1]]) 1 2 ∧
    evIdx (Ev.taskEnd 1)
        [Ev.taskBegin 1, Ev.taskEnd 1, Ev.fire 1, Ev.taskBegin 2,
         Ev.taskEnd 2, Ev.fire 2, Ev.send 1, Ev.send 2] <
      evIdx (Ev.taskBegin 2)
        [Ev.taskBegin 1, Ev.taskEnd 1, Ev.fire 1, Ev.taskBegin 2,
         Ev.taskEnd 2, Ev.fire 2, Ev.send 1, Ev.send 2] :=
  c1_dependency_safety [[1], [1]]
    [Ev.taskBegin 1, Ev.taskEnd 1, Ev.fire 1, Ev.taskBegin 2,
     Ev.taskEnd 2, Ev.fire 2, Ev.send 1, Ev.send 2] 1 2
    (Relation.TransGen.single (by decide)) (by decide)

theorem proxyRun_cons (effectsOpen : Bool) (panics succ : Nat → Bool)
    (T : List (Nat × Nat)) (t0 : Nat) (fp : List Nat) (rest : List (List Nat)) :
    proxyRun effectsOpen panics succ T t0 (fp :: rest) =
      runTask effectsOpen panics succ
        ⟨t0 + 1, (getDependencies T (t0 + 1) fp).1, (getDependencies T (t0 + 1) fp).2.1⟩ ::
        proxyRun effectsOpen panics succ (getDependencies T (t0 + 1) fp).2.2 (t0 + 1) rest := rfl

theorem proxyRun_length (effectsOpen : Bool) (panics succ : Nat → Bool) :
    ∀ (fps : List (List Nat)) (T : List (Nat × Nat)) (t0 : Nat),
      (proxyRun effectsOpen panics succ T t0 fps).length = fps.length := by
  intro fps
  induction fps with
  | nil => intro T t0; rfl
  | cons fp rest ih =>
    intro T t0
    rw [proxyRun_cons, List.length_cons, List.length_cons, ih]

theorem runTask_closed_delivered (panics succ : Nat → Bool) (t : PTask) :
    (runTask false panics succ t).delivered = none := by
  unfold runTask
  split <;> rfl

theorem proxyRun_closed_delivers_none (panics succ : Nat → Bool) :
    ∀ (fps : List (List Nat)) (T : List (Nat × Nat)) (t0 : Nat),
      ∀ out ∈ proxyRun false panics succ T t0 fps, out.delivered = none := by
  intro fps
  induction fps with
  | nil =>
    intro T t0 out h
    simp [proxyRun] at h
  | cons fp rest ih =>
    intro T t0 out h
    rw [proxyRun_cons] at h
    rcases List.mem_cons.mp h with rfl | h2
    · exact runTask_closed_delivered panics succ _
    · exact ih _ _ out h2

/-- C6 counterexample: with the effects receiver closed before any send
and two transactions queued, the dependency-parallel worker of
`Proxy::run` admits and spawns both — its admission loop contains no
`break` and never observes the channel-closed signal, so it does not
terminate as the claim states (termination would leave at most the first
transaction admitted). -/
theorem c6_counterexample :
    ¬ (proxyRun false (fun _ => false) (fun _ => true) [] 0 [[1], [2]]).length ≤ 1 := by
  decide

/-- C6 amended: only the sequential `ProxyCore::run` terminates its loop
when the effects send fails (receiving and executing exactly one
transaction and delivering nothing); the dependency-parallel `Proxy::run`
admission loop never terminates on effects-channel closure — it admits
every queued transaction and each spawned task completes, merely
no-oping on its failed send. -/
theorem c6_effects_closed_amended (succ panics : Nat → Bool) (tid0 : Nat)
    (fp : List Nat) (rest fps : List (List Nat)) (T : List (Nat × Nat)) :
    coreRun false succ tid0 (fp :: rest) = ([], 1) ∧
    (proxyRun false panics succ T tid0 fps).length = fps.length ∧
    ∀ out ∈ proxyRun false panics succ T tid0 fps, out.delivered = none :=
  ⟨rfl, proxyRun_length false panics succ fps T tid0,
   proxyRun_closed_delivers_none panics succ fps T tid0⟩

theorem c6_effects_closed_amended_witness :
    coreRun false (fun _ => true) 0 [[1], [2]] = ([], 1) ∧
    (proxyRun false (fun _ => false) (fun _ => true) [] 0 [[1], [2]]).length = 2 ∧
    ((proxyRun false (fun _ => false) (fun _ => true) [] 0 [[1], [2]]).getD 0
      ⟨0, [], [], none, none⟩).delivered = none := by
  have h := c6_effects_closed_amended (fun _ => true) (fun _ => false) 0 [1] [[2]] [[1], [2]] []
  exact ⟨h.1, h.2.1, h.2.2 _ (by decide)⟩

/-- C7 counterexample: when the executor panics, the spawned task of
`Proxy::run` unwinds before reaching the `notify_one` loop: the current
handle is fired zero times, not exactly once, and no effects are sent —
refuting the claim for the executor-panic case (the body has no scoped
guard around the handles). -/
theorem c7_counterexample :
    (runTask true (fun _ => true) (fun _ => true) ⟨1, [], [1]⟩).fired.count 1 = 0 ∧
    (runTask true (fun _ => true) (fun _ => true) ⟨1, [], [1]⟩).sentAttempt = none ∧
    (0 : Nat) ≠ 1 := by
  decide

theorem proxyRun_members (effectsOpen : Bool) (panics succ : Nat → Bool) :
    ∀ (fps : List (List Nat)) (T : List (Nat × Nat)) (t0 : Nat),
      ∀ out ∈ proxyRun effectsOpen panics succ T t0 fps,
        ∃ tid priors, out = runTask effectsOpen panics succ ⟨tid, priors, [tid]⟩ := by
  intro fps
  induction fps with
  | nil =>
    intro T t0 out h
    simp [proxyRun] at h
  | cons fp rest ih =>
    intro T t0 out h
    rw [proxyRun_cons] at h
    rcases List.mem_cons.mp h with rfl | h2
    · exact ⟨t0 + 1, (getDependencies T (t0 + 1) fp).1, rfl⟩
    · exact ih _ _ out h2

theorem runTask_tid (eo : Bool) (pan succ : Nat → Bool) (t : PTask) :
    (runTask eo pan succ t).tid = t.tid := by
  unfold runTask
  split <;> rfl

/-- C7 amended: every admitted task of the dependency-parallel proxy
whose executor returns (does not panic) fires each of its current
completion handles exactly once after the executor call, whatever the
`success()` flag of the effects says, and the effects are still sent —
delivered exactly when the effects receiver is open.  On executor panic
the task unwinds before the notify loop and the handles stay unfired
(see the counterexample). -/
theorem c7_fire_on_return_amended (effectsOpen : Bool) (panics succ : Nat → Bool)
    (fps : List (List Nat)) (T : List (Nat × Nat)) (t0 : Nat) :
    ∀ out ∈ proxyRun effectsOpen panics succ T t0 fps, panics out.tid = false →
      out.fired = out.currents ∧ (∀ c ∈ out.currents, out.fired.count c = 1) ∧
      out.sentAttempt = some ⟨succ out.tid, out.tid⟩ ∧
      out.delivered = (if effectsOpen then some ⟨succ out.tid, out.tid⟩ else none) := by
  intro out hmem hpan
  obtain ⟨tid, priors, rfl⟩ := proxyRun_members effectsOpen panics succ fps T t0 out hmem
  rw [runTask_tid] at hpan
  simp only [runTask, hpan, Bool.false_eq_true, if_false]
  refine ⟨by simp, ?_, by simp, by simp⟩
  intro c hc
  simp only [List.mem_singleton] at hc
  subst hc
  simp

theorem c7_fire_on_return_amended_witness :
    ([1] : List Nat) = [1] ∧ (∀ c ∈ ([1] : List Nat), ([1] : List Nat).count c = 1) ∧
    (some (⟨false, 1⟩ : Effects) = some ⟨false, 1⟩) ∧
    (some (⟨false, 1⟩ : Effects) = if true then some (⟨false, 1⟩ : Effects) else none) :=
  c7_fire_on_return_amended true (fun _ => false) (fun _ => false) [[1]] [] 0
    ⟨1, [1], [1], some ⟨false, 1⟩, some ⟨false, 1⟩⟩ (by decide) (by decide)

/-- C8 counterexample: on two universally-overlapping transactions (both
footprints `[0]`) the dependency-parallel proxy can deliver effects out
of admission order even though execution is serial: each spawned task
fires its completion signal before sending, so the successor's send may
reach the channel first.  The trace below is admissible, its send order
is task 2 before task 1, while the sequential `ProxyCore` delivers task
1's effects first — the two variants are not observationally equivalent
as sequences on the output channel. -/
theorem c8_counterexample :
    validTrace [[0], [0]]
      [Ev.taskBegin 1, Ev.taskEnd 1, Ev.fire 1, Ev.taskBegin 2,
       Ev.taskEnd 2, Ev.fire 2, Ev.send 2, Ev.send 1] ∧
    sendOrder [Ev.taskBegin 1, Ev.taskEnd 1, Ev.fire 1, Ev.taskBegin 2,
       Ev.taskEnd 2, Ev.fire 2, Ev.send 2, Ev.send 1] = [2, 1] ∧
    ((coreRun true (fun _ => true) 0 [[0], [0]]).1.map fun e => e.tid) = [1, 2] ∧
    ([2, 1] : List Nat) ≠ [1, 2] := by
  decide

theorem coreRun_open_tids (succ : Nat → Bool) :
    ∀ (fps : List (List Nat)) (t0 : Nat),
      (coreRun true succ t0 fps).1.map (fun e => e.tid) =
        (List.range fps.length).map (fun k => t0 + k + 1) := by
  intro fps
  induction fps with
  | nil => intro t0; rfl
  | cons fp rest ih =>
    intro t0
    show (t0 + 1) :: (coreRun true succ (t0 + 1) rest).1.map (fun e => e.tid) = _
    rw [ih (t0 + 1), List.length_cons, List.range_succ_eq_map, List.map_cons, List.map_map]
    simp only [List.cons.injEq]
    refine ⟨by simp, ?_⟩
    apply List.map_congr_left
    intro k _
    simp only [Function.comp_apply]
    omega

theorem sendOrder_count (t : Nat) : ∀ (tr : List Ev),
    (sendOrder tr).count t = tr.count (Ev.send t) := by
  intro tr
  induction tr with
  | nil => rfl
  | cons e rest ih =>
    cases e with
    | taskBegin u => simpa [sendOrder, List.count_cons] using ih
    | taskEnd u => simpa [sendOrder, List.count_cons] using ih
    | fire u => simpa [sendOrder, List.count_cons] using ih
    | send u =>
      show (u :: sendOrder rest).count t = _
      rw [List.count_cons, List.count_cons, ih]
      simp

theorem fpOf_replicate (n a : Nat) (h1 : 1 ≤ a) (h2 : a ≤ n) :
    fpOf (List.replicate n [0]) a = [0] := by
  unfold fpOf
  rw [List.getD_eq_getElem?_getD, List.getElem?_replicate, if_pos (by omega)]
  rfl

/-- C8 amended: in the degenerate mode where every transaction's
footprint is universally overlapping (all touch object 0), the
dependency-parallel proxy is serialised exactly like the sequential
`ProxyCore` — in every admissible trace the executor call of an earlier
task returns before that of any later task begins — and each task's
effects reach the output channel exactly once under both variants; the
delivery order, however, may differ between the two (see the
counterexample), since a task fires its completion signal before its
send. -/
theorem c8_degenerate_equivalence_amended (n : Nat) (succ : Nat → Bool) (tr : List Ev)
    (hv : validTrace (List.replicate n [0]) tr) :
    (∀ a b, 1 ≤ a → a < b → b ≤ n →
      evIdx (Ev.taskEnd a) tr < evIdx (Ev.taskBegin b) tr) ∧
    (∀ t, 1 ≤ t → t ≤ n →
      (sendOrder tr).count t = 1 ∧
      ((coreRun true succ 0 (List.replicate n [0])).1.map fun e => e.tid).count t = 1) := by
  have hlen : (List.replicate n [0]).length = n := List.length_replicate n [0]
  constructor
  · intro a b ha hab hb
    have hreach : Relation.TransGen (depEdge (List.replicate n [0])) a b := by
      apply depReach_of_overlap (List.replicate n [0]) b a 0 hab ha (by omega)
      · rw [fpOf_replicate n a ha (by omega)]
        exact List.mem_singleton.mpr rfl
      · rw [fpOf_replicate n b (by omega) hb]
        exact List.mem_singleton.mpr rfl
    obtain ⟨ha1, ha2, _, _, hlt⟩ :=
      depReach_fire_lt_taskBegin (List.replicate n [0]) tr hv a b hreach
    have hva := hv a (mem_taskIds _ a ha1 ha2)
    have hend := hva.2.2.2.2.2.1
    omega
  · intro t ht1 ht2
    have hvt := hv t (mem_taskIds _ t ht1 (by omega))
    constructor
    · rw [sendOrder_count]
      exact hvt.2.2.2.1
    · rw [coreRun_open_tids, hlen]
      apply List.count_eq_one_of_mem
      · apply List.Nodup.map
        · intro x y hxy
          simp at hxy
          omega
        · exact List.nodup_range n
      · exact List.mem_map.mpr ⟨t - 1, List.mem_range.mpr (by omega), by omega⟩

theorem c8_degenerate_equivalence_amended_witness :
    evIdx (Ev.taskEnd 1)
        [Ev.taskBegin 1, Ev.taskEnd 1, Ev.fire 1, Ev.send 1, Ev.taskBegin 2,
         Ev.taskEnd 2, Ev.fire 2, Ev.send 2] <
      evIdx (Ev.taskBegin 2)
        [Ev.taskBegin 1, Ev.taskEnd 1, Ev.fire 1, Ev.send 1, Ev.taskBegin 2,
         Ev.taskEnd 2, Ev.fire 2, Ev.send 2] ∧
    (sendOrder [Ev.taskBegin 1, Ev.taskEnd 1, Ev.fire 1, Ev.send 1, Ev.taskBegin 2,
       Ev.taskEnd 2, Ev.fire 2, Ev.send 2]).count 1 = 1 ∧
    ((coreRun true (fun _ => true) 0 (List.replicate 2 [0])).1.map fun e => e.tid).count 1 = 1 := by
  have h := c8_degenerate_equivalence_amended 2 (fun _ => true)
    [Ev.taskBegin 1, Ev.taskEnd 1, Ev.fire 1, Ev.send 1, Ev.taskBegin 2,
     Ev.taskEnd 2, Ev.fire 2, Ev.send 2] (by decide)
  exact ⟨h.1 1 2 (by decide) (by decide) (by decide),
    (h.2 1 (by decide) (by decide)).1, (h.2 1 (by decide) (by decide)).2⟩
